import Mathlib

/-!
Verification development for the hierarchical backlink tree component of
notebook-navigator (`src/utils/backlinkUtils.ts`).

The TypeScript source is shallowly embedded:
* JavaScript `Map` (insertion-ordered, unique keys) becomes an association
  list where updating an existing key rewrites it in place and a fresh key
  is appended at the end.
* JavaScript `Set` (insertion-ordered, deduplicating) becomes a list to
  which `setAdd` appends an element only when absent.
* String operations (`startsWith`, `split('/')`, `substring(1)`,
  `String.prototype.replace` with a plain-string pattern, the
  `/\.(md|canvas|base)$/` suffix regex) are reimplemented over `List Char`
  with JavaScript semantics.
* The Obsidian `App` (metadata cache and link resolver) is an external
  collaborator and is embedded as a record of functions.
-/

/-! ## String primitives (JavaScript semantics) -/

/-- `listPre pat s` is true when `pat` is an initial run of `s`
(JS `String.prototype.startsWith` over char lists). -/
def listPre : List Char → List Char → Bool
  | [], _ => true
  | _ :: _, [] => false
  | p :: ps, c :: cs => if p = c then listPre ps cs else false

/-- JS `s.startsWith(pat)`. -/
def strStarts (s pat : String) : Bool := listPre pat.data s.data

/-- JS `s.length` (for the ASCII inputs of this component, chars = UTF-16 units). -/
def strLen (s : String) : Nat := s.data.length

/-- JS `s.substring(1)`. -/
def strDrop1 (s : String) : String := String.mk (s.data.drop 1)

/-- Remove the first occurrence of `pat` from a char list; the list is
returned unchanged when `pat` does not occur
(JS `s.replace(pat, "")` with a plain-string pattern). -/
def dropFirstOccur (pat : List Char) : List Char → List Char
  | [] => []
  | c :: cs => if listPre pat (c :: cs) then (c :: cs).drop pat.length
               else c :: dropFirstOccur pat cs

/-- JS `s.replace(pat, "")` with a plain-string pattern: only the first
occurrence is removed. -/
def replaceFirst (s pat : String) : String := String.mk (dropFirstOccur pat.data s.data)

/-- Does `pat` occur as a contiguous run anywhere in the char list? -/
def listOccurs (pat : List Char) : List Char → Bool
  | [] => pat.isEmpty
  | c :: cs => listPre pat (c :: cs) || listOccurs pat cs

/-- Does `pat` occur as a substring of `s`? -/
def strOccurs (s pat : String) : Bool := listOccurs pat.data s.data

/-- JS `s.endsWith(pat)`. -/
def strEnds (s pat : String) : Bool := listPre pat.data.reverse s.data.reverse

/-- Drop the final `n` chars of `s`. -/
def strDropRight (s : String) (n : Nat) : String :=
  String.mk (s.data.take (s.data.length - n))

/-- The regex `\.(md|canvas|base)$` anchored at the end: strip one
recognized content-type suffix if present (`backlinkPath.replace(...)`). -/
def stripExtension (s : String) : String :=
  if strEnds s ".md" then strDropRight s 3
  else if strEnds s ".canvas" then strDropRight s 7
  else if strEnds s ".base" then strDropRight s 5
  else s

/-- Auxiliary for `splitSlash`: `acc` holds the chars of the current
segment in reverse. -/
def splitSlashAux : List Char → List Char → List String
  | [], acc => [String.mk acc.reverse]
  | c :: cs, acc =>
    if c = '/' then String.mk acc.reverse :: splitSlashAux cs []
    else splitSlashAux cs (c :: acc)

/-- JS `s.split('/')`: always returns at least one (possibly empty)
segment; empty segments between consecutive slashes are kept. -/
def splitSlash (s : String) : List String := splitSlashAux s.data []

/-- `parts.join('/')`. -/
def joinSlash : List String → String
  | [] => ""
  | [s] => s
  | s :: rest => s ++ "/" ++ joinSlash rest

/-- The leading-slash cleanup both passes of the source perform:
`if (x.startsWith('/')) x = x.substring(1)`. -/
def stripLeadSlash (s : String) : String :=
  if strStarts s "/" then strDrop1 s else s

/-- The segment list the second pass of `buildBacklinkTree` derives from a
grouping key: strip one leading slash, then split on `/`. -/
def normalizeKey (k : String) : List String := splitSlash (stripLeadSlash k)

/-! ## Data model -/

/-- A file known to the host (`TFile`); only its vault path matters here. -/
structure TFile where
  path : String
deriving DecidableEq

/-- The part of `LinkCache`/`FrontmatterLinkCache` the builder reads. -/
structure GenericLinkCache where
  link : String
deriving DecidableEq

/-- The part of the host's per-file metadata cache the builder reads. -/
structure FileCache where
  links : Option (List GenericLinkCache)
  frontmatterLinks : Option (List GenericLinkCache)
deriving DecidableEq

/-- The host services `buildBacklinkTree` consumes:
`app.metadataCache.getFileCache` and
`app.metadataCache.getFirstLinkpathDest(linkText, sourcePath)`. -/
structure App where
  getFileCache : TFile → Option FileCache
  getFirstLinkpathDest : String → String → Option TFile

mutual
/-- `BacklinkTreeNode` of the source: name, full path, children map,
and the set of note paths carrying this exact backlink. -/
inductive BacklinkTreeNode : Type where
  | mk (name : String) (path : String) (children : TreeMap) (notesWithTag : List String)
/-- `Map<string, BacklinkTreeNode>`: insertion-ordered association list. -/
inductive TreeMap : Type where
  | nil
  | cons (key : String) (node : BacklinkTreeNode) (rest : TreeMap)
end

def BacklinkTreeNode.name : BacklinkTreeNode → String
  | .mk n _ _ _ => n

def BacklinkTreeNode.path : BacklinkTreeNode → String
  | .mk _ p _ _ => p

def BacklinkTreeNode.children : BacklinkTreeNode → TreeMap
  | .mk _ _ c _ => c

def BacklinkTreeNode.notesWithTag : BacklinkTreeNode → List String
  | .mk _ _ _ t => t

/-- `Map.get`. -/
def mapGet : TreeMap → String → Option BacklinkTreeNode
  | .nil, _ => none
  | .cons k n rest, key => if key = k then some n else mapGet rest key

/-- `Map.set`: rewrite in place when the key exists, append otherwise. -/
def mapSet : TreeMap → String → BacklinkTreeNode → TreeMap
  | .nil, key, v => .cons key v .nil
  | .cons k n rest, key, v =>
    if key = k then .cons k v rest else .cons k n (mapSet rest key v)

/-- `Set.add`: append only when absent. -/
def setAdd (l : List String) (x : String) : List String :=
  if x ∈ l then l else l ++ [x]

/-- Lookup in the intermediate grouping map `Map<string, Set<string>>`. -/
def assocGet : List (String × List String) → String → Option (List String)
  | [], _ => none
  | (k, v) :: rest, key => if key = k then some v else assocGet rest key

/-- Update/append in the intermediate grouping map. -/
def assocSet : List (String × List String) → String → List String → List (String × List String)
  | [], key, v => [(key, v)]
  | (k, w) :: rest, key, v =>
    if key = k then (k, v) :: rest else (k, w) :: assocSet rest key v

/-- The source's
`if (!cache.has(k)) cache.set(k, new Set()); cache.get(k)!.add(file.path)`. -/
def addToCache (cache : List (String × List String)) (key val : String) :
    List (String × List String) :=
  match assocGet cache key with
  | some s => assocSet cache key (setAdd s val)
  | none => assocSet cache key (setAdd [] val)

/-! ## First pass: grouping links by backlink key -/

/-- Body of the inner `for (const link of links)` loop of
`buildBacklinkTree`: resolve the link, apply the `folderPath` filter,
derive the backlink key, record the referencing file. -/
def linkStep (app : App) (folderPath : String) (file : TFile)
    (cache : List (String × List String)) (link : GenericLinkCache) :
    List (String × List String) :=
  match app.getFirstLinkpathDest link.link file.path with
  | none => cache
  | some linkFile =>
    if strStarts linkFile.path folderPath then
      let backlinkPath :=
        if folderPath ≠ "" then replaceFirst linkFile.path (folderPath ++ "/")
        else linkFile.path
      addToCache cache (stripExtension backlinkPath) file.path
    else cache

/-- The inner link loop. -/
def foldLinks (app : App) (folderPath : String) (file : TFile) :
    List GenericLinkCache → List (String × List String) → List (String × List String)
  | [], cache => cache
  | l :: rest, cache => foldLinks app folderPath file rest (linkStep app folderPath file cache l)

/-- Body of the outer `for (const file of allFiles)` loop: fetch the file
cache, concatenate `links` with `frontmatterLinks` (skipping the file
entirely when `links` is absent, as the optional chain does), then run the
link loop. -/
def fileStep (app : App) (folderPath : String)
    (cache : List (String × List String)) (file : TFile) :
    List (String × List String) :=
  match app.getFileCache file with
  | none => cache
  | some fc =>
    match fc.links with
    | none => cache
    | some ls =>
      let links := ls ++ fc.frontmatterLinks.getD []
      if links = [] then cache
      else foldLinks app folderPath file links cache

def firstPassAux (app : App) (folderPath : String) :
    List TFile → List (String × List String) → List (String × List String)
  | [], cache => cache
  | f :: rest, cache => firstPassAux app folderPath rest (fileStep app folderPath cache f)

/-- The complete first pass of `buildBacklinkTree`: the intermediate
grouping map `allBacklinksCache`. -/
def firstPass (allFiles : List TFile) (folderPath : String) (app : App) :
    List (String × List String) :=
  firstPassAux app folderPath allFiles []

/-! ## Second pass: building the tree -/

/-- The `parts.forEach` walk of the second pass: walk/create the node
chain for `parts`, setting `notesWithTag := notes` (overwrite) on the
final node.  `acc` is the list of parts already consumed, so
`joinSlash (acc ++ [part])` is the source's
`parts.slice(0, index + 1).join('/')`. -/
def insertParts (notes : List String) : List String → List String → TreeMap → TreeMap
  | _, [], level => level
  | acc, part :: rest, level =>
    let node :=
      match mapGet level part with
      | some n => n
      | none => BacklinkTreeNode.mk part (joinSlash (acc ++ [part])) TreeMap.nil []
    let nw := if rest = [] then notes else node.notesWithTag
    mapSet level part
      (BacklinkTreeNode.mk node.name node.path
        (insertParts notes (acc ++ [part]) rest node.children) nw)

/-- The `allBacklinksCache.forEach` loop: insert every (key, notes) pair,
normalizing the key (strip one leading slash, split on `/`) first. -/
def secondPass : List (String × List String) → TreeMap → TreeMap
  | [], root => root
  | kv :: rest, root => secondPass rest (insertParts kv.2 [] (normalizeKey kv.1) root)

/-- `buildBacklinkTree(allFiles, folderPath, app)`. -/
def buildBacklinkTree (allFiles : List TFile) (folderPath : String) (app : App) : TreeMap :=
  if allFiles = [] then TreeMap.nil
  else secondPass (firstPass allFiles folderPath app) TreeMap.nil

/-! ## Lookup -/

/-- The `for (const part of parts)` walk of `findBacklinkNode`, including
the trailing `currentNode || null`. -/
def lookupChain : List String → TreeMap → Option BacklinkTreeNode
  | [], _ => none
  | [p], level => mapGet level p
  | p :: q :: rest, level =>
    match mapGet level p with
    | none => none
    | some n => lookupChain (q :: rest) n.children

/-- The segment list `findBacklinkNode` walks: strip one leading slash,
split on `/`, drop empty segments. -/
def findParts (path : String) : List String :=
  (splitSlash (stripLeadSlash path)).filter (fun part => decide (0 < strLen part))

/-- `findBacklinkNode(path, tree)`. -/
def findBacklinkNode (path : String) (tree : TreeMap) : Option BacklinkTreeNode :=
  if strLen path ≤ 1 then none
  else
    let parts := findParts path
    if parts = [] then none
    else lookupChain parts tree

/-! ## Counting (pure and memoized) -/

mutual
/-- The value `getTotalNoteCount` computes:
`|notesWithTag| + Σ over children`, ignoring the cache. -/
def getTotalNoteCount : BacklinkTreeNode → Nat
  | .mk _ _ children notes => notes.length + countChildren children
def countChildren : TreeMap → Nat
  | .nil => 0
  | .cons _ c rest => getTotalNoteCount c + countChildren rest
end

mutual
/-- Structural equality test on nodes, standing in for the reference
identity the source's `WeakMap` keys on (nodes are immutable once the
tree is built, so equal values behave identically). -/
def nodeBEq : BacklinkTreeNode → BacklinkTreeNode → Bool
  | .mk n1 p1 c1 t1, .mk n2 p2 c2 t2 =>
    decide (n1 = n2) && decide (p1 = p2) && mapBEq c1 c2 && decide (t1 = t2)
def mapBEq : TreeMap → TreeMap → Bool
  | .nil, .nil => true
  | .cons k1 n1 r1, .cons k2 n2 r2 => decide (k1 = k2) && nodeBEq n1 n2 && mapBEq r1 r2
  | .nil, .cons _ _ _ => false
  | .cons _ _ _, .nil => false
end

/-- `noteCountCache` (a `WeakMap<BacklinkTreeNode, number>`), embedded as
an explicit association list threaded through the computation. -/
def NoteCountCache : Type := List (BacklinkTreeNode × Nat)

/-- `noteCountCache.get(node)`. -/
def cacheGet : List (BacklinkTreeNode × Nat) → BacklinkTreeNode → Option Nat
  | [], _ => none
  | (n, v) :: rest, m => if nodeBEq n m then some v else cacheGet rest m

mutual
/-- `getTotalNoteCount(node)` as written in the source: consult the cache,
otherwise sum `notesWithTag.size` and the children's totals, then store
the result.  Returns the count and the updated cache. -/
def getTotalNoteCountMemo : BacklinkTreeNode → List (BacklinkTreeNode × Nat) →
    Nat × List (BacklinkTreeNode × Nat)
  | .mk name path children notes, cache =>
    match cacheGet cache (BacklinkTreeNode.mk name path children notes) with
    | some v => (v, cache)
    | none =>
      let r := memoChildren children cache
      let count := notes.length + r.1
      (count, (BacklinkTreeNode.mk name path children notes, count) :: r.2)
/-- The `for (const child of node.children.values())` accumulation. -/
def memoChildren : TreeMap → List (BacklinkTreeNode × Nat) →
    Nat × List (BacklinkTreeNode × Nat)
  | .nil, cache => (0, cache)
  | .cons _ c rest, cache =>
    let r := getTotalNoteCountMemo c cache
    let r2 := memoChildren rest r.2
    (r.1 + r2.1, r2.2)
end

/-- Sum of `getTotalNoteCountMemo` over the children, each started from
the empty cache (i.e. independent top-level calls). -/
def memoSumChildren : TreeMap → Nat
  | .nil => 0
  | .cons _ c rest => (getTotalNoteCountMemo c []).1 + memoSumChildren rest

/-- A cache is consistent when every entry records the true total of its
node. -/
def CacheOK (c : List (BacklinkTreeNode × Nat)) : Prop :=
  ∀ p ∈ c, getTotalNoteCount p.1 = p.2

/-! ## Path collection -/

mutual
/-- `collectAllBacklinkPaths(node, paths)`. -/
def collectAllBacklinkPaths : BacklinkTreeNode → List String → List String
  | .mk _ path children _, paths => collectChildren children (setAdd paths path)
def collectChildren : TreeMap → List String → List String
  | .nil, paths => paths
  | .cons _ c rest, paths => collectChildren rest (collectAllBacklinkPaths c paths)
end

mutual
/-- Specification-side enumeration: the path of a node and of every one
of its descendants. -/
def nodePaths : BacklinkTreeNode → List String
  | .mk _ path children _ => path :: mapPaths children
def mapPaths : TreeMap → List String
  | .nil => []
  | .cons _ c rest => nodePaths c ++ mapPaths rest
end

mutual
/-- A node placed below the name chain `pre` is well-formed when its path
is the slash-join of `pre` extended by its own name, recursively. -/
def WFnode : BacklinkTreeNode → List String → Prop
  | .mk name path children _, pre =>
    path = joinSlash (pre ++ [name]) ∧ WFmap children (pre ++ [name])
/-- Every entry of a well-formed map is keyed by its node's name and is
itself well-formed. -/
def WFmap : TreeMap → List String → Prop
  | .nil, _ => True
  | .cons k n rest, pre => n.name = k ∧ WFnode n pre ∧ WFmap rest pre
end

/-- A node chain: `ns` lists the nodes met while descending the tree `m`
through successive children maps, ending at `last`. -/
inductive NodeChain : TreeMap → List BacklinkTreeNode → BacklinkTreeNode → Prop where
  | single (m : TreeMap) (k : String) (n : BacklinkTreeNode) :
      mapGet m k = some n → NodeChain m [n] n
  | step (m : TreeMap) (k : String) (n : BacklinkTreeNode) (ns : List BacklinkTreeNode)
      (last : BacklinkTreeNode) :
      mapGet m k = some n → NodeChain n.children ns last → NodeChain m (n :: ns) last

mutual
/-- Does every node of this subtree have a non-empty name? -/
def nodeNamesOK : BacklinkTreeNode → Bool
  | .mk name _ children _ => !(decide (name = "")) && mapNamesOK children
def mapNamesOK : TreeMap → Bool
  | .nil => true
  | .cons _ n rest => nodeNamesOK n && mapNamesOK rest
end

/-- The node `a` with one child `b`; used to instantiate C6. -/
def exNode : BacklinkTreeNode :=
  .mk "a" "a" (.cons "b" (.mk "b" "a/b" .nil ["n1"]) .nil) ["n2"]

def exNodeB : BacklinkTreeNode := .mk "b" "a/b" .nil ["n1"]

def exNodeA : BacklinkTreeNode := .mk "a" "a" (.cons "b" exNodeB .nil) []

/-- Host with file `n1` holding links `in` (resolving inside `tags/`) and
`out` (resolving to `other/z`, outside `tags`). -/
def exApp7 : App where
  getFileCache := fun f =>
    if f.path = "n1" then some ⟨some [⟨"in"⟩, ⟨"out"⟩], none⟩ else none
  getFirstLinkpathDest := fun link _ =>
    if link = "in" then some ⟨"tags/a"⟩
    else if link = "out" then some ⟨"other/z"⟩ else none

/-- The same host with the outside-resolving link removed. -/
def exApp7x : App where
  getFileCache := fun f =>
    if f.path = "n1" then some ⟨some [⟨"in"⟩], none⟩ else none
  getFirstLinkpathDest := exApp7.getFirstLinkpathDest

/-- The note set found at the end of a segment chain, if any. -/
def lookupNotes (parts : List String) (m : TreeMap) : Option (List String) :=
  (lookupChain parts m).map BacklinkTreeNode.notesWithTag

/-! ## Concrete instances used by witnesses and counterexamples -/

/-- A host with a single file `n1` carrying one link `lk` that resolves to
the file at path `t`. -/
def oneLinkApp (t : String) : App where
  getFileCache := fun f =>
    if f.path = "n1" then some ⟨some [⟨"lk"⟩], none⟩ else none
  getFirstLinkpathDest := fun link _ =>
    if link = "lk" then some ⟨t⟩ else none

example : firstPass [⟨"n1"⟩] "" (oneLinkApp "a/b") = [("a/b", ["n1"])] := rfl
example : buildBacklinkTree [⟨"n1"⟩] "" (oneLinkApp "a/b")
  = .cons "a" (.mk "a" "a" (.cons "b" (.mk "b" "a/b" .nil ["n1"]) .nil) []) .nil := rfl
example : findBacklinkNode "a" (buildBacklinkTree [⟨"n1"⟩] "" (oneLinkApp "a")) = none := rfl
example : firstPass [⟨"n1"⟩] "" (oneLinkApp "a") = [("a", ["n1"])] := rfl
example : findBacklinkNode "a/b" (buildBacklinkTree [⟨"n1"⟩] "" (oneLinkApp "a/b"))
  = some (.mk "b" "a/b" .nil ["n1"]) := rfl
example : buildBacklinkTree [⟨"n1"⟩] "tags" (oneLinkApp "other/z") = .nil := rfl
example : firstPass [⟨"n1"⟩] "tags" (oneLinkApp "tagsother/z") = [("tagsother/z", ["n1"])] := rfl
example : firstPass [⟨"n1"⟩] "tags" (oneLinkApp "tags/x.md") = [("x", ["n1"])] := rfl
example : firstPass [⟨"n1"⟩] "tags" (oneLinkApp "tagsX/tags/y") = [("tagsX/y", ["n1"])] := rfl
example : buildBacklinkTree [⟨"n1"⟩] "" (oneLinkApp "a//b")
  = .cons "a" (.mk "a" "a"
      (.cons "" (.mk "" "a/" (.cons "b" (.mk "b" "a//b" .nil ["n1"]) .nil) []) .nil) []) .nil := rfl
example : (getTotalNoteCountMemo (.mk "a" "a" (.cons "b" (.mk "b" "a/b" .nil ["n1"]) .nil) ["n2"]) []).1 = 2 := rfl
example : collectAllBacklinkPaths (.mk "a" "a" (.cons "b" (.mk "b" "a/b" .nil ["n1"]) .nil) []) [] = ["a", "a/b"] := rfl

/-! ## Basic lemmas about the map/set embedding -/

theorem mapGet_set_self : ∀ (m : TreeMap) (k : String) (v : BacklinkTreeNode),
    mapGet (mapSet m k v) k = some v
  | .nil, k, v => by simp [mapSet, mapGet]
  | .cons k' n rest, k, v => by
    by_cases h : k = k'
    · simp [mapSet, mapGet, h]
    · simp [mapSet, mapGet, h, mapGet_set_self rest k v]

theorem mapGet_set_other : ∀ (m : TreeMap) (k k' : String) (v : BacklinkTreeNode),
    k' ≠ k → mapGet (mapSet m k v) k' = mapGet m k'
  | .nil, k, k', v, h => by simp [mapSet, mapGet, h]
  | .cons k0 n rest, k, k', v, h => by
    by_cases h0 : k = k0
    · subst h0
      simp [mapSet, mapGet, h]
    · simp only [mapSet, if_neg (fun hh => h0 hh)]
      by_cases h1 : k' = k0
      · simp [mapGet, h1]
      · simp [mapGet, h1, mapGet_set_other rest k k' v h]

theorem setAdd_mem (l : List String) (x s : String) :
    s ∈ setAdd l x ↔ s ∈ l ∨ s = x := by
  unfold setAdd
  by_cases h : x ∈ l
  · simp only [if_pos h]
    constructor
    · exact fun hs => Or.inl hs
    · rintro (hs | rfl)
      · exact hs
      · exact h
  · simp [if_neg h, List.mem_append]

theorem splitSlashAux_ne_nil : ∀ (cs : List Char) (acc : List Char),
    splitSlashAux cs acc ≠ []
  | [], acc => by simp [splitSlashAux]
  | c :: cs, acc => by
    by_cases h : c = '/'
    · simp [splitSlashAux, h]
    · simp only [splitSlashAux, if_neg h]
      exact splitSlashAux_ne_nil cs (c :: acc)

theorem splitSlash_ne_nil (s : String) : splitSlash s ≠ [] :=
  splitSlashAux_ne_nil s.data []

/-! ## Structural equality on trees -/

mutual
theorem nodeBEq_sound : ∀ a b : BacklinkTreeNode, nodeBEq a b = true → a = b
  | .mk n1 p1 c1 t1, .mk n2 p2 c2 t2, h => by
    simp only [nodeBEq, Bool.and_eq_true, decide_eq_true_eq] at h
    obtain ⟨⟨⟨h1, h2⟩, h3⟩, h4⟩ := h
    subst h1; subst h2; subst h4
    rw [mapBEq_sound c1 c2 h3]
theorem mapBEq_sound : ∀ a b : TreeMap, mapBEq a b = true → a = b
  | .nil, .nil, _ => rfl
  | .cons k1 n1 r1, .cons k2 n2 r2, h => by
    simp only [mapBEq, Bool.and_eq_true, decide_eq_true_eq] at h
    obtain ⟨⟨h1, h2⟩, h3⟩ := h
    subst h1
    rw [nodeBEq_sound n1 n2 h2, mapBEq_sound r1 r2 h3]
  | .nil, .cons _ _ _, h => by simp [mapBEq] at h
  | .cons _ _ _, .nil, h => by simp [mapBEq] at h
end

mutual
theorem nodeBEq_refl : ∀ a : BacklinkTreeNode, nodeBEq a a = true
  | .mk n p c t => by simp [nodeBEq, mapBEq_refl c]
theorem mapBEq_refl : ∀ a : TreeMap, mapBEq a a = true
  | .nil => rfl
  | .cons k n r => by simp [mapBEq, nodeBEq_refl n, mapBEq_refl r]
end

/-! ## Memoized counting is the pure count -/

theorem cacheOK_nil : CacheOK [] := fun p hp => absurd hp (List.not_mem_nil p)

theorem cacheGet_ok : ∀ (c : List (BacklinkTreeNode × Nat)) (n : BacklinkTreeNode) (v : Nat),
    CacheOK c → cacheGet c n = some v → getTotalNoteCount n = v
  | [], n, v, _, h => by simp [cacheGet] at h
  | (m, w) :: rest, n, v, hok, h => by
    by_cases hb : nodeBEq m n = true
    · simp only [cacheGet, if_pos hb, Option.some.injEq] at h
      have hmn := nodeBEq_sound m n hb
      have hm := hok (m, w) (List.mem_cons_self _ _)
      simp only at hm
      rw [← hmn, hm, h]
    · simp only [cacheGet, if_neg hb] at h
      exact cacheGet_ok rest n v (fun p hp => hok p (List.mem_cons_of_mem _ hp)) h

mutual
theorem memo_ok : ∀ (n : BacklinkTreeNode) (c : List (BacklinkTreeNode × Nat)), CacheOK c →
    (getTotalNoteCountMemo n c).1 = getTotalNoteCount n ∧
      CacheOK (getTotalNoteCountMemo n c).2
  | .mk name path children notes, c, hok => by
    cases h : cacheGet c (BacklinkTreeNode.mk name path children notes) with
    | some v =>
      simp only [getTotalNoteCountMemo, h]
      exact ⟨(cacheGet_ok c _ v hok h).symm, hok⟩
    | none =>
      have ih := memoChildren_ok children c hok
      simp only [getTotalNoteCountMemo, h]
      refine ⟨by simp [getTotalNoteCount, ih.1], ?_⟩
      intro p hp
      rcases List.mem_cons.mp hp with h1 | h2
      · subst h1
        simp [getTotalNoteCount, ih.1]
      · exact ih.2 p h2
theorem memoChildren_ok : ∀ (m : TreeMap) (c : List (BacklinkTreeNode × Nat)), CacheOK c →
    (memoChildren m c).1 = countChildren m ∧ CacheOK (memoChildren m c).2
  | .nil, c, hok => ⟨rfl, hok⟩
  | .cons k child rest, c, hok => by
    have ih1 := memo_ok child c hok
    have ih2 := memoChildren_ok rest (getTotalNoteCountMemo child c).2 ih1.2
    simp only [memoChildren, countChildren]
    exact ⟨by rw [ih1.1, ih2.1], ih2.2⟩
end

theorem memoSumChildren_eq : ∀ m : TreeMap, memoSumChildren m = countChildren m
  | .nil => rfl
  | .cons k child rest => by
    simp only [memoSumChildren, countChildren]
    rw [(memo_ok child [] cacheOK_nil).1, memoSumChildren_eq rest]

theorem memo_hit (n : BacklinkTreeNode) (c : List (BacklinkTreeNode × Nat)) (v : Nat)
    (h : cacheGet c n = some v) : getTotalNoteCountMemo n c = (v, c) := by
  cases n with
  | mk name path children notes => simp only [getTotalNoteCountMemo, h]

/-- C2: for every node (in particular every node of every tree produced by
`buildBacklinkTree`), the total computed by the memoized
`getTotalNoteCount` equals the size of the node's own note set plus the
sum of the totals of its children. -/
theorem aggregateCount_recurrence (n : BacklinkTreeNode) :
    (getTotalNoteCountMemo n []).1 =
      n.notesWithTag.length + memoSumChildren n.children := by
  cases n with
  | mk name path children notes =>
    rw [(memo_ok (BacklinkTreeNode.mk name path children notes) [] cacheOK_nil).1]
    simp only [getTotalNoteCount, BacklinkTreeNode.notesWithTag, BacklinkTreeNode.children]
    rw [memoSumChildren_eq]

/-- C6: starting from any consistent cache, `getTotalNoteCount` returns the
pure total (so sibling call order cannot change the result), the first
call leaves the value cached under the node, and a second call on the same
node returns exactly the value of the first. -/
theorem aggregateCount_idempotent (n : BacklinkTreeNode)
    (c : List (BacklinkTreeNode × Nat)) (h : CacheOK c) :
    (getTotalNoteCountMemo n c).1 = getTotalNoteCount n ∧
      cacheGet (getTotalNoteCountMemo n c).2 n = some (getTotalNoteCountMemo n c).1 ∧
      (getTotalNoteCountMemo n (getTotalNoteCountMemo n c).2).1 =
        (getTotalNoteCountMemo n c).1 := by
  have h1 := (memo_ok n c h).1
  have h2 : cacheGet (getTotalNoteCountMemo n c).2 n = some (getTotalNoteCountMemo n c).1 := by
    cases n with
    | mk name path children notes =>
      cases hc : cacheGet c (BacklinkTreeNode.mk name path children notes) with
      | some v => simp only [getTotalNoteCountMemo, hc]
      | none =>
        simp only [getTotalNoteCountMemo, hc, cacheGet,
          if_pos (nodeBEq_refl (BacklinkTreeNode.mk name path children notes))]
  refine ⟨h1, h2, ?_⟩
  rw [memo_hit n (getTotalNoteCountMemo n c).2 (getTotalNoteCountMemo n c).1 h2]

/-- Witness for C6 at a concrete two-level node and the empty cache. -/
theorem aggregateCount_idempotent_witness :
    (getTotalNoteCountMemo exNode []).1 = getTotalNoteCount exNode ∧
      cacheGet (getTotalNoteCountMemo exNode []).2 exNode =
        some (getTotalNoteCountMemo exNode []).1 ∧
      (getTotalNoteCountMemo exNode (getTotalNoteCountMemo exNode []).2).1 =
        (getTotalNoteCountMemo exNode []).1 :=
  aggregateCount_idempotent exNode [] cacheOK_nil

/-! ## Path collection: exact characterization -/

mutual
theorem collect_mem : ∀ (n : BacklinkTreeNode) (acc : List String) (s : String),
    s ∈ collectAllBacklinkPaths n acc ↔ s ∈ acc ∨ s ∈ nodePaths n
  | .mk name path children notes, acc, s => by
    simp only [collectAllBacklinkPaths, nodePaths]
    rw [collectChildren_mem children (setAdd acc path) s, setAdd_mem]
    simp only [List.mem_cons]
    tauto
theorem collectChildren_mem : ∀ (m : TreeMap) (acc : List String) (s : String),
    s ∈ collectChildren m acc ↔ s ∈ acc ∨ s ∈ mapPaths m
  | .nil, acc, s => by simp [collectChildren, mapPaths]
  | .cons k c rest, acc, s => by
    simp only [collectChildren, mapPaths]
    rw [collectChildren_mem rest (collectAllBacklinkPaths c acc) s, collect_mem c acc s]
    simp only [List.mem_append]
    tauto
end

/-- C8: `collectAllBacklinkPaths` with a fresh set returns exactly the set
of the node's own path and every descendant's path; in particular it
contains the node's path and has size at least one. -/
theorem collectPaths_exact (n : BacklinkTreeNode) :
    (∀ s, s ∈ collectAllBacklinkPaths n [] ↔ s ∈ nodePaths n) ∧
      n.path ∈ collectAllBacklinkPaths n [] ∧
      1 ≤ (collectAllBacklinkPaths n []).length := by
  have hmem : ∀ s, s ∈ collectAllBacklinkPaths n [] ↔ s ∈ nodePaths n := by
    intro s
    rw [collect_mem n [] s]
    simp
  have hpath : n.path ∈ collectAllBacklinkPaths n [] := by
    rw [hmem]
    cases n with
    | mk name path children notes => simp [nodePaths, BacklinkTreeNode.path]
  exact ⟨hmem, hpath, List.length_pos.mpr (List.ne_nil_of_mem hpath)⟩

/-! ## Lookup failure semantics -/

/-- C3: `findBacklinkNode` is a total function whose only failure mode is
the distinguished result `none`: the empty path and the bare slash are
rejected for every tree, and whenever the segment chain does not resolve
in the tree the result is `none`. -/
theorem findNode_not_found_semantics (t : TreeMap) (p : String) :
    findBacklinkNode "" t = none ∧ findBacklinkNode "/" t = none ∧
      (lookupChain (findParts p) t = none → findBacklinkNode p t = none) := by
  refine ⟨rfl, rfl, ?_⟩
  intro h
  unfold findBacklinkNode
  by_cases h1 : strLen p ≤ 1
  · simp [h1]
  · simp only [if_neg h1]
    by_cases h2 : findParts p = []
    · simp [h2]
    · simp [h2, h]

/-- Witness for C3: on the empty tree, the chain `x/y` does not resolve
and `findBacklinkNode` reports not-found. -/
theorem findNode_not_found_semantics_witness :
    findBacklinkNode "x/y" TreeMap.nil = none :=
  (findNode_not_found_semantics TreeMap.nil "x/y").2.2 rfl

/-- C10: every path of length at most one is rejected by
`findBacklinkNode`, for every tree. -/
theorem findNode_short_path_not_found (t : TreeMap) (p : String) (h : strLen p ≤ 1) :
    findBacklinkNode p t = none := by
  unfold findBacklinkNode
  simp [h]

/-- Witness for C10: the tree built from the single key `a` does contain a
root node under key `a`, yet `findBacklinkNode "a"` returns `none`. -/
theorem findNode_short_path_not_found_witness :
    (mapGet (buildBacklinkTree [TFile.mk "n1"] "" (oneLinkApp "a")) "a").isSome = true ∧
      findBacklinkNode "a" (buildBacklinkTree [TFile.mk "n1"] "" (oneLinkApp "a")) = none :=
  ⟨rfl, findNode_short_path_not_found _ "a" (by decide)⟩

/-- Counterexample to C1 as stated: with one document `n1` whose link
resolves to the single-character identifier `a` and an empty base path,
the intermediate grouping map contains the key `a` with document set
containing exactly `n1`, yet `findBacklinkNode "a"` on the built tree returns
`none` rather than a node carrying that document set. -/
theorem findNode_misses_short_key :
    ("a", ["n1"]) ∈ firstPass [TFile.mk "n1"] "" (oneLinkApp "a") ∧
      findBacklinkNode "a" (buildBacklinkTree [TFile.mk "n1"] "" (oneLinkApp "a")) = none :=
  ⟨by decide, rfl⟩

/-! ## Path/name well-formedness (C4) -/

theorem wf_mapGet : ∀ (m : TreeMap) (pre : List String) (k : String) (n : BacklinkTreeNode),
    WFmap m pre → mapGet m k = some n → n.name = k ∧ WFnode n pre
  | .nil, _, _, _, _, hg => by simp [mapGet] at hg
  | .cons k0 n0 rest, pre, k, n, hwf, hg => by
    rw [WFmap] at hwf
    by_cases h : k = k0
    · simp only [mapGet, if_pos h, Option.some.injEq] at hg
      subst hg
      exact ⟨h ▸ hwf.1, hwf.2.1⟩
    · simp only [mapGet, if_neg h] at hg
      exact wf_mapGet rest pre k n hwf.2.2 hg

theorem wf_mapSet : ∀ (m : TreeMap) (pre : List String) (k : String) (v : BacklinkTreeNode),
    WFmap m pre → v.name = k → WFnode v pre → WFmap (mapSet m k v) pre
  | .nil, pre, k, v, _, hname, hv => by
    simp only [mapSet, WFmap]
    exact ⟨hname, hv, trivial⟩
  | .cons k0 n0 rest, pre, k, v, hwf, hname, hv => by
    rw [WFmap] at hwf
    by_cases h : k = k0
    · simp only [mapSet, if_pos h, WFmap]
      exact ⟨h ▸ hname, hv, hwf.2.2⟩
    · simp only [mapSet, if_neg h, WFmap]
      exact ⟨hwf.1, hwf.2.1, wf_mapSet rest pre k v hwf.2.2 hname hv⟩

theorem wf_insertParts : ∀ (parts acc notes : List String) (level : TreeMap),
    WFmap level acc → WFmap (insertParts notes acc parts level) acc
  | [], _, _, level, hwf => hwf
  | part :: rest, acc, notes, level, hwf => by
    simp only [insertParts]
    cases hg : mapGet level part with
    | some n =>
      have hn := wf_mapGet level acc part n hwf hg
      cases n with
      | mk nn np nc nt =>
        have hname : nn = part := hn.1
        have hpath : np = joinSlash (acc ++ [nn]) := (hn.2).1
        have hch : WFmap nc (acc ++ [nn]) := (hn.2).2
        refine wf_mapSet level acc part _ hwf ?_ ?_
        · exact hname
        · rw [WFnode]
          subst hname
          refine ⟨hpath, ?_⟩
          simp only [BacklinkTreeNode.children]
          exact wf_insertParts rest (acc ++ [nn]) notes nc hch
    | none =>
      refine wf_mapSet level acc part _ hwf rfl ?_
      rw [WFnode]
      simp only [BacklinkTreeNode.children, BacklinkTreeNode.name, BacklinkTreeNode.path]
      exact ⟨trivial, wf_insertParts rest (acc ++ [part]) notes TreeMap.nil trivial⟩

theorem wf_secondPass : ∀ (L : List (String × List String)) (root : TreeMap),
    WFmap root [] → WFmap (secondPass L root) []
  | [], _, hwf => hwf
  | kv :: rest, root, hwf => by
    simp only [secondPass]
    exact wf_secondPass rest _ (wf_insertParts (normalizeKey kv.1) [] kv.2 root hwf)

theorem wf_build (allFiles : List TFile) (folderPath : String) (app : App) :
    WFmap (buildBacklinkTree allFiles folderPath app) [] := by
  unfold buildBacklinkTree
  split
  · trivial
  · exact wf_secondPass _ _ trivial

theorem chain_path (m : TreeMap) (ns : List BacklinkTreeNode) (last : BacklinkTreeNode)
    (h : NodeChain m ns last) :
    ∀ (pre : List String), WFmap m pre →
      last.path = joinSlash (pre ++ ns.map BacklinkTreeNode.name) := by
  induction h with
  | single m k n hget =>
    intro pre hwf
    have hn := wf_mapGet m pre k n hwf hget
    cases n with
    | mk nn np nc nt =>
      simpa [BacklinkTreeNode.path, BacklinkTreeNode.name] using (hn.2).1
  | step m k n ns' lastv hget hch ih =>
    intro pre hwf
    have hn := wf_mapGet m pre k n hwf hget
    have hc : WFmap n.children (pre ++ [n.name]) := by
      cases n with
      | mk nn np nc nt =>
        simpa [BacklinkTreeNode.children, BacklinkTreeNode.name] using ((hn.2).2)
    rw [ih (pre ++ [n.name]) hc]
    simp [List.append_assoc]

/-- C4: for every tree returned by `buildBacklinkTree` and every chain of
nodes reachable in it, the `path` of the final node equals the slash-join of the
`name` fields of the nodes along the chain. -/
theorem node_path_joins_chain_names (allFiles : List TFile) (folderPath : String)
    (app : App) (ns : List BacklinkTreeNode) (n : BacklinkTreeNode)
    (h : NodeChain (buildBacklinkTree allFiles folderPath app) ns n) :
    n.path = joinSlash (ns.map BacklinkTreeNode.name) := by
  have := chain_path _ ns n h [] (wf_build allFiles folderPath app)
  simpa using this

/-- Witness for C4 on the tree built from the single key `a/b`. -/
theorem node_path_joins_chain_names_witness :
    exNodeB.path = joinSlash ([exNodeA, exNodeB].map BacklinkTreeNode.name) :=
  node_path_joins_chain_names [TFile.mk "n1"] "" (oneLinkApp "a/b") [exNodeA, exNodeB] exNodeB
    (NodeChain.step _ "a" exNodeA [exNodeB] exNodeB rfl (NodeChain.single _ "b" exNodeB rfl))

/-! ## Node names (C5) -/

theorem names_mapGet : ∀ (m : TreeMap) (k : String) (n : BacklinkTreeNode),
    mapNamesOK m = true → mapGet m k = some n → nodeNamesOK n = true
  | .nil, _, _, _, hg => by simp [mapGet] at hg
  | .cons k0 n0 rest, k, n, hok, hg => by
    simp only [mapNamesOK, Bool.and_eq_true] at hok
    by_cases h : k = k0
    · simp only [mapGet, if_pos h, Option.some.injEq] at hg
      subst hg
      exact hok.1
    · simp only [mapGet, if_neg h] at hg
      exact names_mapGet rest k n hok.2 hg

theorem names_mapSet : ∀ (m : TreeMap) (k : String) (v : BacklinkTreeNode),
    mapNamesOK m = true → nodeNamesOK v = true → mapNamesOK (mapSet m k v) = true
  | .nil, k, v, _, hv => by simp [mapSet, mapNamesOK, hv]
  | .cons k0 n0 rest, k, v, hok, hv => by
    simp only [mapNamesOK, Bool.and_eq_true] at hok
    by_cases h : k = k0
    · simp [mapSet, if_pos h, mapNamesOK, hv, hok.2]
    · simp only [mapSet, if_neg h, mapNamesOK, Bool.and_eq_true]
      exact ⟨hok.1, names_mapSet rest k v hok.2 hv⟩

theorem names_insertParts : ∀ (parts acc notes : List String) (level : TreeMap),
    mapNamesOK level = true → (∀ p ∈ parts, p ≠ "") →
    mapNamesOK (insertParts notes acc parts level) = true
  | [], _, _, level, hok, _ => hok
  | part :: rest, acc, notes, level, hok, hall => by
    have hpart : part ≠ "" := hall part (List.mem_cons_self _ _)
    have hrest : ∀ p ∈ rest, p ≠ "" := fun p hp => hall p (List.mem_cons_of_mem _ hp)
    simp only [insertParts]
    cases hg : mapGet level part with
    | some n =>
      have hn := names_mapGet level part n hok hg
      cases n with
      | mk nn np nc nt =>
        simp only [nodeNamesOK, Bool.and_eq_true] at hn
        refine names_mapSet level part _ hok ?_
        simp only [BacklinkTreeNode.name, BacklinkTreeNode.path, BacklinkTreeNode.children,
          BacklinkTreeNode.notesWithTag, nodeNamesOK, Bool.and_eq_true]
        exact ⟨hn.1, names_insertParts rest (acc ++ [part]) notes nc hn.2 hrest⟩
    | none =>
      refine names_mapSet level part _ hok ?_
      simp only [BacklinkTreeNode.name, BacklinkTreeNode.path, BacklinkTreeNode.children,
        BacklinkTreeNode.notesWithTag, nodeNamesOK, Bool.and_eq_true]
      refine ⟨by simp [hpart], names_insertParts rest (acc ++ [part]) notes TreeMap.nil rfl hrest⟩

theorem names_secondPass : ∀ (L : List (String × List String)) (root : TreeMap),
    mapNamesOK root = true →
    (∀ kv ∈ L, ∀ seg ∈ normalizeKey kv.1, seg ≠ "") →
    mapNamesOK (secondPass L root) = true
  | [], _, hok, _ => hok
  | kv :: rest, root, hok, hall => by
    simp only [secondPass]
    refine names_secondPass rest _ ?_ (fun kv' h' => hall kv' (List.mem_cons_of_mem _ h'))
    exact names_insertParts (normalizeKey kv.1) [] kv.2 root hok
      (hall kv (List.mem_cons_self _ _))

/-- C5 (amended): every node of the tree has a non-empty name provided
every key of the intermediate grouping map, after the removal of at most
one leading slash, splits into segments that are all non-empty.  (The
second pass strips only a single leading `/` and does not skip other empty
segments, so this proviso is necessary; see the counterexample.) -/
theorem no_empty_names_amended (allFiles : List TFile) (folderPath : String) (app : App)
    (h : ∀ kv ∈ firstPass allFiles folderPath app, ∀ seg ∈ normalizeKey kv.1, seg ≠ "") :
    mapNamesOK (buildBacklinkTree allFiles folderPath app) = true := by
  unfold buildBacklinkTree
  split
  · rfl
  · exact names_secondPass _ _ rfl h

/-- Witness for C5 (amended) on the single well-formed key `a/b`. -/
theorem no_empty_names_amended_witness :
    mapNamesOK (buildBacklinkTree [TFile.mk "n1"] "" (oneLinkApp "a/b")) = true :=
  no_empty_names_amended [TFile.mk "n1"] "" (oneLinkApp "a/b") (by decide)

/-- Counterexample to C5 as stated: a link resolving to the identifier
`a//b` produces the grouping key `a//b`, whose middle segment is empty;
the second pass only strips one leading slash and creates a child node
whose `name` is the empty string. -/
theorem empty_name_node_created :
    ((mapGet (buildBacklinkTree [TFile.mk "n1"] "" (oneLinkApp "a//b")) "a").map
        (fun n => (mapGet n.children "").map BacklinkTreeNode.name)) = some (some "") ∧
      mapNamesOK (buildBacklinkTree [TFile.mk "n1"] "" (oneLinkApp "a//b")) = false :=
  ⟨rfl, rfl⟩

/-! ## The basePath filter (C7, C9) -/

theorem linkStep_skip (app : App) (fp : String) (file : TFile)
    (cache : List (String × List String)) (l : GenericLinkCache) (lf : TFile)
    (hres : app.getFirstLinkpathDest l.link file.path = some lf)
    (hout : strStarts lf.path fp = false) :
    linkStep app fp file cache l = cache := by
  simp [linkStep, hres, hout]

theorem foldLinks_skip (app : App) (fp : String) (file : TFile)
    (l : GenericLinkCache) (lf : TFile)
    (hres : app.getFirstLinkpathDest l.link file.path = some lf)
    (hout : strStarts lf.path fp = false) :
    ∀ (A B : List GenericLinkCache) (cache : List (String × List String)),
      foldLinks app fp file (A ++ l :: B) cache = foldLinks app fp file (A ++ B) cache
  | [], B, cache => by
    simp only [List.nil_append, foldLinks]
    rw [linkStep_skip app fp file cache l lf hres hout]
  | a :: A, B, cache => by
    simp only [List.cons_append, foldLinks]
    exact foldLinks_skip app fp file l lf hres hout A B (linkStep app fp file cache a)

theorem foldLinks_congr (app app' : App) (fp : String) (file : TFile)
    (hres_eq : app'.getFirstLinkpathDest = app.getFirstLinkpathDest) :
    ∀ (links : List GenericLinkCache) (cache : List (String × List String)),
      foldLinks app' fp file links cache = foldLinks app fp file links cache
  | [], _ => rfl
  | a :: links, cache => by
    simp only [foldLinks]
    rw [show linkStep app' fp file cache a = linkStep app fp file cache a by
          simp only [linkStep, hres_eq]]
    exact foldLinks_congr app app' fp file hres_eq links _

/-- C7: a link whose resolved target falls outside the non-empty base
path contributes nothing to the built tree: a host differing only in the
presence of that one link in the source document's link list produces the
identical tree (hence no node and no `notesWithTag` entry stems from the
link). -/
theorem outside_basepath_link_contributes_nothing
    (allFiles : List TFile) (fp : String) (app app' : App) (f0 : TFile)
    (l : GenericLinkCache) (lf : TFile) (fc fc' : FileCache)
    (A B : List GenericLinkCache)
    (hfp : fp ≠ "")
    (hres_eq : app'.getFirstLinkpathDest = app.getFirstLinkpathDest)
    (hres : app.getFirstLinkpathDest l.link f0.path = some lf)
    (hout : strStarts lf.path fp = false)
    (hsame : ∀ f, f ≠ f0 → app'.getFileCache f = app.getFileCache f)
    (hfc : app.getFileCache f0 = some fc)
    (hfc' : app'.getFileCache f0 = some fc')
    (hlinks : fc.links = some (A ++ l :: B))
    (hlinks' : fc'.links = some (A ++ B))
    (hfm : fc'.frontmatterLinks = fc.frontmatterLinks) :
    buildBacklinkTree allFiles fp app' = buildBacklinkTree allFiles fp app := by
  have hfile : ∀ (cache : List (String × List String)) (f : TFile),
      fileStep app' fp cache f = fileStep app fp cache f := by
    intro cache f
    by_cases hf : f = f0
    · subst hf
      simp only [fileStep, hfc, hfc', hlinks, hlinks', hfm]
      rw [if_neg (by simp : ¬ (A ++ l :: B) ++ fc.frontmatterLinks.getD [] = [])]
      by_cases hempty : (A ++ B) ++ fc.frontmatterLinks.getD [] = []
      · rw [if_pos hempty]
        rw [List.append_eq_nil, List.append_eq_nil] at hempty
        obtain ⟨⟨hA, hB⟩, hfm0⟩ := hempty
        simp only [hA, hB, hfm0, List.nil_append, List.append_nil, foldLinks]
        rw [linkStep_skip app fp f cache l lf hres hout]
      · rw [if_neg hempty]
        rw [foldLinks_congr app app' fp f hres_eq]
        rw [show (A ++ l :: B) ++ fc.frontmatterLinks.getD [] =
              A ++ l :: (B ++ fc.frontmatterLinks.getD []) by simp]
        rw [show (A ++ B) ++ fc.frontmatterLinks.getD [] =
              A ++ (B ++ fc.frontmatterLinks.getD []) by simp]
        exact (foldLinks_skip app fp f l lf hres hout A
          (B ++ fc.frontmatterLinks.getD []) cache).symm
    · rw [fileStep, fileStep, hsame f hf]
      cases hc : app.getFileCache f with
      | none => simp only [hc]
      | some fcx =>
        simp only [hc]
        cases hl : fcx.links with
        | none => simp only [hl]
        | some ls =>
          simp only [hl]
          by_cases he : ls ++ fcx.frontmatterLinks.getD [] = []
          · rw [if_pos he, if_pos he]
          · rw [if_neg he, if_neg he]
            exact foldLinks_congr app app' fp f hres_eq _ cache
  have haux : ∀ (files : List TFile) (cache : List (String × List String)),
      firstPassAux app' fp files cache = firstPassAux app fp files cache := by
    intro files
    induction files with
    | nil => intro cache; rfl
    | cons f rest ih =>
      intro cache
      simp only [firstPassAux]
      rw [hfile cache f, ih]
  unfold buildBacklinkTree
  split
  · rfl
  · unfold firstPass
    rw [haux]

/-- Witness for C7: with base path `tags`, dropping the link that
resolves to `other/z` leaves the built tree unchanged. -/
theorem outside_basepath_link_contributes_nothing_witness :
    buildBacklinkTree [TFile.mk "n1"] "tags" exApp7x =
      buildBacklinkTree [TFile.mk "n1"] "tags" exApp7 :=
  outside_basepath_link_contributes_nothing [TFile.mk "n1"] "tags" exApp7 exApp7x
    (TFile.mk "n1") ⟨"out"⟩ ⟨"other/z"⟩
    ⟨some [⟨"in"⟩, ⟨"out"⟩], none⟩ ⟨some [⟨"in"⟩], none⟩
    [⟨"in"⟩] []
    (by decide) rfl rfl rfl
    (fun f hf => by
      cases f with
      | mk p =>
        have hp : p ≠ "n1" := fun h => hf (by rw [h])
        simp [exApp7, exApp7x, hp])
    rfl rfl rfl rfl rfl

/-! ## C9: the basePath filter is a raw character test -/

theorem dropFirstOccur_no_occur : ∀ (pat s : List Char),
    listOccurs pat s = false → dropFirstOccur pat s = s
  | _, [], _ => rfl
  | pat, c :: cs, h => by
    simp only [listOccurs, Bool.or_eq_false_iff] at h
    simp only [dropFirstOccur, h.1, Bool.false_eq_true, if_false]
    rw [dropFirstOccur_no_occur pat cs h.2]

theorem replaceFirst_no_occur (s pat : String) (h : strOccurs s pat = false) :
    replaceFirst s pat = s := by
  unfold replaceFirst
  rw [dropFirstOccur_no_occur pat.data s.data h]

/-- C9: with a non-empty base path `fp`, a link resolving to a target
whose identifier starts with `fp` as a plain character run is included
(its referencing file is recorded in the grouping map, hence in the
tree), and when `fp ++ "/"` does not occur anywhere in the identifier the
grouping key keeps the full identifier (minus only a recognized
content-type suffix) — the replacement strips only a first occurrence of
`fp ++ "/"`, never `fp` alone. -/
theorem basepath_filter_is_raw_character_test (app : App) (fp : String) (file : TFile)
    (cache : List (String × List String)) (l : GenericLinkCache) (lf : TFile)
    (hfp : fp ≠ "")
    (hres : app.getFirstLinkpathDest l.link file.path = some lf)
    (hstart : strStarts lf.path fp = true)
    (hnoc : strOccurs lf.path (fp ++ "/") = false) :
    linkStep app fp file cache l =
      addToCache cache (stripExtension lf.path) file.path := by
  simp only [linkStep, hres, hstart, if_true, hfp, ne_eq, not_false_iff, if_pos]
  rw [replaceFirst_no_occur lf.path (fp ++ "/") hnoc]

/-- Witness for C9: base path `tags`, target `tagsother/z` — starts with
`tags` but not at a path boundary; the link is included and its grouping
key stays `tagsother/z`. -/
theorem basepath_filter_is_raw_character_test_witness :
    linkStep (oneLinkApp "tagsother/z") "tags" (TFile.mk "n1") [] ⟨"lk"⟩ =
      addToCache [] (stripExtension "tagsother/z") (TFile.mk "n1").path :=
  basepath_filter_is_raw_character_test (oneLinkApp "tagsother/z") "tags" (TFile.mk "n1")
    [] ⟨"lk"⟩ ⟨"tagsother/z"⟩ (by decide) rfl rfl rfl

/-! ## From grouping keys to tree lookup (C1) -/

theorem insertParts_cons (notes acc : List String) (part : String) (rest : List String)
    (level : TreeMap) :
    insertParts notes acc (part :: rest) level =
      (let node := match mapGet level part with
        | some n => n
        | none => BacklinkTreeNode.mk part (joinSlash (acc ++ [part])) TreeMap.nil []
      mapSet level part
        (BacklinkTreeNode.mk node.name node.path
          (insertParts notes (acc ++ [part]) rest node.children)
          (if rest = [] then notes else node.notesWithTag))) := rfl

theorem lookup_insert_self : ∀ (parts acc notes : List String) (level : TreeMap),
    parts ≠ [] → lookupNotes parts (insertParts notes acc parts level) = some notes
  | [], _, _, _, h => absurd rfl h
  | [p], acc, notes, level, _ => by
    rw [insertParts_cons]
    cases hg : mapGet level p <;>
      simp [hg, lookupNotes, lookupChain, mapGet_set_self, insertParts,
        BacklinkTreeNode.notesWithTag]
  | p :: q :: rest, acc, notes, level, _ => by
    rw [insertParts_cons]
    cases hg : mapGet level p with
    | some n =>
      have ih := lookup_insert_self (q :: rest) (acc ++ [p]) notes n.children (by simp)
      simp only [lookupNotes] at ih ⊢
      simp only [hg, lookupChain, mapGet_set_self, BacklinkTreeNode.children]
      exact ih
    | none =>
      have ih := lookup_insert_self (q :: rest) (acc ++ [p]) notes TreeMap.nil (by simp)
      simp only [lookupNotes] at ih ⊢
      simp only [hg, lookupChain, mapGet_set_self, BacklinkTreeNode.children]
      exact ih

theorem lookup_insert_other : ∀ (parts parts' acc notes : List String)
    (level : TreeMap) (s : List String),
    parts ≠ parts' → lookupNotes parts level = some s →
    lookupNotes parts (insertParts notes acc parts' level) = some s
  | _, [], _, _, _, _, _, h => by simpa [insertParts] using h
  | [], _ :: _, _, _, level, s, _, h => by
    simp [lookupNotes, lookupChain] at h
  | p :: ps, p' :: ps', acc, notes, level, s, hne, h => by
    rw [insertParts_cons]
    by_cases hpp : p = p'
    · subst hpp
      cases hg : mapGet level p with
      | none =>
        exfalso
        cases ps with
        | nil => simp [lookupNotes, lookupChain, hg] at h
        | cons q qs => simp [lookupNotes, lookupChain, hg] at h
      | some n =>
        have htail : ps ≠ ps' := fun hh => hne (by rw [hh])
        cases ps with
        | nil =>
          cases ps' with
          | nil => exact absurd rfl hne
          | cons q' qs' =>
            simp only [lookupNotes, lookupChain, hg, Option.map_some',
              Option.some.injEq] at h
            simp only [hg, lookupNotes, lookupChain, mapGet_set_self,
              Option.map_some', Option.some.injEq]
            simpa [BacklinkTreeNode.notesWithTag] using h
        | cons q qs =>
          simp only [lookupNotes, lookupChain, hg] at h
          have ihres := lookup_insert_other (q :: qs) ps' (acc ++ [p]) notes
            n.children s htail (by simp only [lookupNotes]; exact h)
          simp only [lookupNotes] at ihres ⊢
          simp only [hg, lookupChain, mapGet_set_self, BacklinkTreeNode.children]
          exact ihres
    · cases ps with
      | nil =>
        simp only [lookupNotes, lookupChain] at h ⊢
        cases hg : mapGet level p' <;>
          · simp only [hg]
            rw [mapGet_set_other level p' p _ hpp]
            exact h
      | cons q qs =>
        simp only [lookupNotes, lookupChain] at h ⊢
        cases hg : mapGet level p' <;>
          · simp only [hg]
            rw [mapGet_set_other level p' p _ hpp]
            exact h

theorem lookup_secondPass_preserve : ∀ (L : List (String × List String)) (root : TreeMap)
    (parts s : List String),
    (∀ kv ∈ L, normalizeKey kv.1 ≠ parts) → lookupNotes parts root = some s →
    lookupNotes parts (secondPass L root) = some s
  | [], _, _, _, _, h => h
  | kv :: L', root, parts, s, hall, h => by
    simp only [secondPass]
    refine lookup_secondPass_preserve L' _ parts s
      (fun kv' h' => hall kv' (List.mem_cons_of_mem _ h')) ?_
    exact lookup_insert_other parts (normalizeKey kv.1) [] kv.2 root s
      (fun he => hall kv (List.mem_cons_self _ _) he.symm) h

theorem lookup_secondPass_last : ∀ (L : List (String × List String)) (root : TreeMap)
    (k : String) (s : List String),
    (k, s) ∈ L →
    (∀ kv ∈ L, normalizeKey kv.1 = normalizeKey k → kv = (k, s)) →
    lookupNotes (normalizeKey k) (secondPass L root) = some s
  | [], _, _, _, hmem, _ => absurd hmem (List.not_mem_nil _)
  | e :: L', root, k, s, hmem, huniq => by
    simp only [secondPass]
    by_cases hex : ∃ kv ∈ L', normalizeKey kv.1 = normalizeKey k
    · obtain ⟨kv, hkv, hnorm⟩ := hex
      have hkv_eq : kv = (k, s) := huniq kv (List.mem_cons_of_mem _ hkv) hnorm
      exact lookup_secondPass_last L' _ k s (hkv_eq ▸ hkv)
        (fun kv' h' hn => huniq kv' (List.mem_cons_of_mem _ h') hn)
    · have he : e = (k, s) := by
        rcases List.mem_cons.mp hmem with h1 | h2
        · exact h1.symm
        · exact absurd ⟨(k, s), h2, rfl⟩ hex
      subst he
      refine lookup_secondPass_preserve L' _ (normalizeKey k) s
        (fun kv' h' hn => hex ⟨kv', h', hn⟩) ?_
      exact lookup_insert_self (normalizeKey k) [] s root (splitSlash_ne_nil _)

theorem strLen_pos_of_ne (s : String) (h : s ≠ "") : 0 < strLen s := by
  cases s with
  | mk data =>
    cases data with
    | nil => exact absurd rfl h
    | cons c cs => simp [strLen]

theorem findParts_eq (k : String) (h : ∀ seg ∈ normalizeKey k, seg ≠ "") :
    findParts k = normalizeKey k := by
  have hall : ∀ seg ∈ normalizeKey k, (fun part => decide (0 < strLen part)) seg = true := by
    intro seg hseg
    simp only [decide_eq_true_eq]
    exact strLen_pos_of_ne seg (h seg hseg)
  unfold findParts normalizeKey at hall ⊢
  exact List.filter_eq_self.mpr hall

/-- C1 (amended): for any non-empty document list and empty base path,
every key of the intermediate grouping map that has at least two
characters, splits into all-non-empty segments, and is the only map key
with its normalized segment list, is found by `findBacklinkNode`, which
returns a node whose `notesWithTag` is exactly that key's document set.
(Keys of length at most one are rejected by the lookup — see the
counterexample — and keys with empty segments or normalization collisions
can miss or shadow their node.) -/
theorem findNode_returns_grouped_set (allFiles : List TFile) (app : App)
    (k : String) (s : List String)
    (hne : allFiles ≠ [])
    (hmem : (k, s) ∈ firstPass allFiles "" app)
    (hlen : 2 ≤ strLen k)
    (hsegs : ∀ seg ∈ normalizeKey k, seg ≠ "")
    (huniq : ∀ kv ∈ firstPass allFiles "" app,
      normalizeKey kv.1 = normalizeKey k → kv = (k, s)) :
    ∃ n, findBacklinkNode k (buildBacklinkTree allFiles "" app) = some n ∧
      n.notesWithTag = s := by
  have hmain := lookup_secondPass_last (firstPass allFiles "" app) TreeMap.nil k s hmem huniq
  have hbuild : buildBacklinkTree allFiles "" app =
      secondPass (firstPass allFiles "" app) TreeMap.nil := by
    unfold buildBacklinkTree
    rw [if_neg hne]
  have hnenil : ¬ normalizeKey k = [] := by
    unfold normalizeKey
    exact splitSlash_ne_nil _
  have hfind : findBacklinkNode k (buildBacklinkTree allFiles "" app) =
      lookupChain (normalizeKey k) (buildBacklinkTree allFiles "" app) := by
    unfold findBacklinkNode
    rw [if_neg (show ¬ strLen k ≤ 1 by omega)]
    simp only [findParts_eq k hsegs, if_neg hnenil]
  rw [hfind, hbuild]
  unfold lookupNotes at hmain
  cases hc : lookupChain (normalizeKey k)
      (secondPass (firstPass allFiles "" app) TreeMap.nil) with
  | none =>
    rw [hc] at hmain
    simp at hmain
  | some n =>
    rw [hc] at hmain
    simp only [Option.map_some', Option.some.injEq] at hmain
    exact ⟨n, rfl, hmain⟩

/-- Witness for C1 (amended) on the key `a/b`. -/
theorem findNode_returns_grouped_set_witness :
    ∃ n, findBacklinkNode "a/b"
        (buildBacklinkTree [TFile.mk "n1"] "" (oneLinkApp "a/b")) = some n ∧
      n.notesWithTag = ["n1"] :=
  findNode_returns_grouped_set [TFile.mk "n1"] (oneLinkApp "a/b") "a/b" ["n1"]
    (by decide) (by decide) (by decide) (by decide) (by decide)
